import Mathlib

/-!
Shallow embedding of the timelapse-server pipeline (main.go) and proofs of
the spec claims.  Go strings are modelled as lists of characters; Go
`time.Time` values are modelled by `GoTime` (unix seconds plus the civil
calendar fields that the program reads); `float64` brightness values are
modelled as rationals (every finite float64 is a rational, and the
threshold 0.25 is exactly representable); external subprocesses (the
brightness scorer, `filepath.Abs`, the mencoder invocation) are modelled
as oracle parameters.  Fatal conditions (`log.Fatal`) are modelled by an
`Option`-valued result being `none`.
-/

/-- Strings from the Go source, modelled as lists of characters. -/
abbrev Str := List Char

/-- Conversion from Lean string literals to the character-list model. -/
def strOf (s : String) : Str := s.data

/-- Decimal digit test, as in Go's character handling ('0' through '9'). -/
def isDigitChar (c : Char) : Bool := '0' ≤ c && c ≤ '9'

/-- Numeric value of a decimal digit character. -/
def digitVal (c : Char) : Nat := c.toNat - 48

/-- Character for a decimal digit (0 through 9). -/
def digitChar (n : Nat) : Char :=
  match n with
  | 0 => '0' | 1 => '1' | 2 => '2' | 3 => '3' | 4 => '4'
  | 5 => '5' | 6 => '6' | 7 => '7' | 8 => '8' | 9 => '9'
  | _ + 10 => '*'

/-- Fuel-driven decimal rendering (structural recursion so that the
kernel can evaluate it; any fuel above the number suffices). -/
def natReprFuel : Nat → Nat → Str
  | 0, _ => []
  | fuel + 1, n =>
    if n < 10 then [digitChar n]
    else natReprFuel fuel (n / 10) ++ [digitChar (n % 10)]

/-- Decimal representation of a natural number, as produced by Go's
`fmt` verb `%d` for non-negative values: most significant digit first,
no leading zeros. -/
def natRepr (n : Nat) : Str := natReprFuel (n + 1) n

/-- Decimal representation of an integer (`%d`): a minus sign for
negative values, then the digits. -/
def intRepr (i : Int) : Str :=
  if i < 0 then '-' :: natRepr (-i).toNat else natRepr i.toNat

/-- Go's `%02d` formatting: minimum width two, zero-padded (the sign
counts toward the width). -/
def goPad2 (i : Int) : Str :=
  let r := intRepr i
  if r.length < 2 then '0' :: r else r

/-- One step of Go's `strconv.ParseUint` digit loop: reject a non-digit,
otherwise accumulate. -/
def digitStep (acc : Option Nat) (c : Char) : Option Nat :=
  acc.bind fun n =>
    if isDigitChar c then some (n * 10 + digitVal c) else none

/-- Value of a non-empty all-digit string, accumulated left to right as
in Go's `strconv.ParseUint`; `none` if the string is empty or contains a
non-digit. -/
def digitsVal (s : Str) : Option Nat :=
  if s = [] then none else s.foldl digitStep (some 0)

/-- Go's `strconv.ParseInt(s, 10, 64)`: an optional leading sign, then
`ParseUint` on the rest, rejected when the value does not fit in a
signed 64-bit integer. -/
def goParseInt64 (s : Str) : Option Int :=
  match s with
  | [] => none
  | c :: rest =>
    if c = '+' then
      (digitsVal rest).bind fun n =>
        if n ≤ 9223372036854775807 then some (n : Int) else none
    else if c = '-' then
      (digitsVal rest).bind fun n =>
        if n ≤ 9223372036854775808 then some (-(n : Int)) else none
    else
      (digitsVal (c :: rest)).bind fun n =>
        if n ≤ 9223372036854775807 then some (n : Int) else none

/-- Go's `strings.Replace(s, pat, "", -1)` for a non-empty pattern:
remove every (leftmost, non-overlapping) occurrence of `pat` from `s`.
The source only ever calls it with the non-empty patterns
"-image.jpg" and ".avi".  Written with a fuel argument (structural
recursion) so that the kernel can evaluate it. -/
def replaceAllFuel : Nat → Str → Str → Str
  | 0, s, _ => s
  | _ + 1, [], _ => []
  | fuel + 1, c :: rest, pat =>
    if pat.isPrefixOf (c :: rest) ∧ pat ≠ [] then
      replaceAllFuel fuel ((c :: rest).drop pat.length) pat
    else
      c :: replaceAllFuel fuel rest pat

/-- Entry point for the replacement: fuel equal to the string length
always suffices, since every step strictly shortens the string. -/
def replaceAll (s pat : Str) : Str := replaceAllFuel s.length s pat

/-- Go's `filepath.Ext`: the suffix of the name starting at the final
dot, or the empty string if the name contains no dot.  (The file names
here never contain a path separator.) -/
def goExt (s : Str) : Str :=
  let pre := s.reverse.takeWhile (fun c => c ≠ '.')
  if pre.length = s.length then [] else '.' :: pre.reverse

/-- Gregorian leap-year rule, as in Go's `time.isLeap`. -/
def isLeapYear (y : Int) : Bool :=
  y.emod 4 == 0 && (y.emod 100 != 0 || y.emod 400 == 0)

/-- Days in the given month of the given year, as in Go's `time.daysIn`
(used by `time.Parse` to validate the day-of-month). -/
def daysInMonth (y : Int) (m : Nat) : Nat :=
  match m with
  | 1 => 31
  | 2 => if isLeapYear y then 29 else 28
  | 3 => 31 | 4 => 30 | 5 => 31 | 6 => 30 | 7 => 31
  | 8 => 31 | 9 => 30 | 10 => 31 | 11 => 30 | 12 => 31
  | _ => 0

/-- Days from the epoch 1970-01-01 to the civil date y-m-d (proleptic
Gregorian), after Howard Hinnant's `days_from_civil` algorithm, which is
also what Go's `time.Date`/`time.Parse` absolute-time arithmetic computes. -/
def daysFromCivil (y : Int) (m d : Nat) : Int :=
  let yy : Int := if m ≤ 2 then y - 1 else y
  let era : Int := yy.fdiv 400
  let yoe : Nat := (yy - era * 400).toNat
  let mp : Nat := (m + 9) % 12
  let doy : Nat := (153 * mp + 2) / 5 + d - 1
  let doe : Nat := yoe * 365 + yoe / 4 - yoe / 100 + doy
  era * 146097 + (doe : Int) - 719468

/-- Civil date (year, month, day) of a day count from the epoch, after
Hinnant's `civil_from_days`; this is the calendar computation behind
Go's `Time.Year`, `Time.Month` and `Time.Day`.  The Go program reads
these fields in the process-local zone; the claims proved below do not
depend on the choice of zone, and a fixed (UTC) zone is modelled. -/
def civilFromDays (z0 : Int) : Int × Nat × Nat :=
  let z := z0 + 719468
  let era : Int := z.fdiv 146097
  let doe : Nat := (z - era * 146097).toNat
  let yoe : Nat := (doe - doe / 1460 + doe / 36524 - doe / 146096) / 365
  let y : Int := (yoe : Int) + era * 400
  let doy : Nat := doe - (365 * yoe + yoe / 4 - yoe / 100)
  let mp : Nat := (5 * doy + 2) / 153
  let d : Nat := doy - (153 * mp + 2) / 5 + 1
  let m : Nat := if mp < 10 then mp + 3 else mp - 9
  (if m ≤ 2 then y + 1 else y, m, d)

/-- Model of Go's `time.Time` as used by the program: the instant in
unix seconds, together with the civil calendar fields `Year()`,
`Month()` and `Day()` that the program reads from it. -/
structure GoTime where
  unix : Int
  year : Int
  month : Nat
  day : Nat
deriving DecidableEq, Repr

/-- Go's `time.Unix(i, 0)`: the instant `i` seconds after the epoch,
with its civil calendar fields. -/
def timeUnix (i : Int) : GoTime :=
  let c := civilFromDays (i.fdiv 86400)
  { unix := i, year := c.1, month := c.2.1, day := c.2.2 }

/-- The midnight instant of a civil date, as produced by Go's
`time.Parse` with a date-only layout. -/
def mkDate (y : Int) (m d : Nat) : GoTime :=
  { unix := 86400 * daysFromCivil y m d, year := y, month := m, day := d }

/-- Source `TimesOnSameDay` (main.go): true iff year, month and
day-of-month all match. -/
def TimesOnSameDay (t1 t2 : GoTime) : Bool :=
  t1.year == t2.year && t1.month == t2.month && t1.day == t2.day

/-- Source `ParseTimestamp` (main.go): parse decimal seconds with
`strconv.ParseInt(s, 10, 64)` and convert with `time.Unix(i, 0)`;
`none` models the returned error. -/
def ParseTimestamp (s : Str) : Option GoTime :=
  (goParseInt64 s).map timeUnix

/-- Source `FormatDate` (main.go): `fmt.Sprintf("%02d-%02d-%02d",
t.Year(), t.Month(), t.Day())`. -/
def FormatDate (t : GoTime) : Str :=
  goPad2 t.year ++ '-' :: goPad2 (t.month : Int) ++ '-' :: goPad2 (t.day : Int)

/-- The literal "-image.jpg" stripped from image file names. -/
def imageSuffix : Str := strOf ("-image.jpg")

/-- Source `ImageFileToTimestamp` (main.go): remove every occurrence of
"-image.jpg" (Go `strings.Replace` with n = -1) and parse the rest as a
unix timestamp. -/
def ImageFileToTimestamp (fname : Str) : Option GoTime :=
  ParseTimestamp (replaceAll fname imageSuffix)

/-- Source `ParseDate` (main.go): Go `time.Parse("2006-01-02", s)`.
The fixed-width layout consumes exactly four year digits, a dash, two
month digits, a dash and two day digits, rejects any leftover input,
and validates that the month is 1..12 and the day fits the month
(`daysIn`).  On success Go returns the midnight instant of that date. -/
def ParseDate (s : Str) : Option GoTime :=
  match s with
  | [y1, y2, y3, y4, c1, m1, m2, c2, d1, d2] =>
    if isDigitChar y1 ∧ isDigitChar y2 ∧ isDigitChar y3 ∧ isDigitChar y4 ∧
       c1 = '-' ∧ isDigitChar m1 ∧ isDigitChar m2 ∧ c2 = '-' ∧
       isDigitChar d1 ∧ isDigitChar d2 then
      let y : Nat :=
        ((digitVal y1 * 10 + digitVal y2) * 10 + digitVal y3) * 10 + digitVal y4
      let m : Nat := digitVal m1 * 10 + digitVal m2
      let d : Nat := digitVal d1 * 10 + digitVal d2
      if 1 ≤ m ∧ m ≤ 12 ∧ 1 ≤ d ∧ d ≤ daysInMonth (y : Int) m then
        some (mkDate (y : Int) m d)
      else none
    else none
  | _ => none

/-- Calendar order on the civil fields of two times: t1 is on the same
day as t2 or on an earlier one. -/
def dateLe (t1 t2 : GoTime) : Prop :=
  t1.year < t2.year ∨
    (t1.year = t2.year ∧
      (t1.month < t2.month ∨ (t1.month = t2.month ∧ t1.day ≤ t2.day)))

instance (t1 t2 : GoTime) : Decidable (dateLe t1 t2) := by
  unfold dateLe
  infer_instance

/-- Brightness threshold constant (main.go): images below this level are
filtered out.  The float64 literal 0.25 is exactly the rational 1/4
(written with `mkRat` so that the kernel can evaluate comparisons). -/
def BrightnessThreshold : ℚ := mkRat 1 4

/-- Source `ImageFileInfo` (main.go).  Brightness is modelled as a
rational: every finite float64 value is a rational, and the only
operation performed on it is the comparison against the threshold. -/
structure ImageFileInfo where
  Filename : Str
  Timestamp : GoTime
  Brightness : ℚ
deriving DecidableEq

/-- One entry of a directory listing as returned by `ioutil.ReadDir`:
the file name and its size (only zero-versus-nonzero matters). -/
structure DirEnt where
  name : Str
  size : Nat
deriving DecidableEq

/-- The image extension recognized by the scanner. -/
def jpgExt : Str := strOf (".jpg")

/-- The video extension recognized by the existing-output detector. -/
def aviExt : Str := strOf (".avi")

/-- Sort key used by the `ImageFileInfos` sort interface (main.go):
`Less(i, j)` is `slice[j].Timestamp.After(slice[i].Timestamp)`, i.e.
strictly earlier instants first, so the sorted order is nondecreasing
in the unix timestamp. -/
def tsLe (a b : ImageFileInfo) : Prop :=
  a.Timestamp.unix ≤ b.Timestamp.unix

instance : DecidableRel tsLe := fun a b =>
  inferInstanceAs (Decidable (a.Timestamp.unix ≤ b.Timestamp.unix))

instance : IsTotal ImageFileInfo tsLe :=
  ⟨fun a b => Int.le_total a.Timestamp.unix b.Timestamp.unix⟩

instance : IsTrans ImageFileInfo tsLe :=
  ⟨fun _ _ _ hab hbc => le_trans hab hbc⟩

/-- Body of the per-file closure `processImage` inside
`ReadImageFileInfos` (main.go).  The brightness oracle models
`CalculateImageBrightness` (a subprocess); `filepath.Join` is modelled
as concatenation with a slash.  Result: `none` models `log.Fatal`
(process abort) on a timestamp-decode or scoring failure; `some none`
means the entry was skipped; `some (some info)` is a collected record. -/
def processImage (imgDir : Str) (excludeDates : List GoTime)
    (brightness : Str → Option ℚ) (file : DirEnt) :
    Option (Option ImageFileInfo) :=
  if file.size = 0 then some none
  else if goExt file.name ≠ jpgExt then some none
  else
    match ImageFileToTimestamp file.name with
    | none => none
    | some tm =>
      if excludeDates.any (fun ex => TimesOnSameDay tm ex) then some none
      else
        match brightness (imgDir ++ '/' :: file.name) with
        | none => none
        | some b =>
          some (some { Filename := file.name, Timestamp := tm, Brightness := b })

/-- The sequential collection loop of `ReadImageFileInfos` (the code
runs with `parallel = false`): process the listed files in order,
keeping the collected records in encounter order; a fatal condition in
any file aborts the whole scan. -/
def collectImages (imgDir : Str) (excludeDates : List GoTime)
    (brightness : Str → Option ℚ) : List DirEnt → Option (List ImageFileInfo)
  | [] => some []
  | f :: rest =>
    match processImage imgDir excludeDates brightness f with
    | none => none
    | some none => collectImages imgDir excludeDates brightness rest
    | some (some info) =>
      (collectImages imgDir excludeDates brightness rest).map
        (fun l => info :: l)

/-- Source `ReadImageFileInfos` (main.go): list the image directory
(the listing is the `files` argument), collect the surviving records,
then `sort.Sort` them.  Go's sort is an unstable comparison sort; it is
modelled by insertion sort, which agrees with it on everything the
claims use (the result is a permutation of the collected records,
sorted under `tsLe`). -/
def ReadImageFileInfos (files : List DirEnt) (imgDir : Str)
    (excludeDates : List GoTime) (brightness : Str → Option ℚ) :
    Option (List ImageFileInfo) :=
  (collectImages imgDir excludeDates brightness files).map
    (fun l => List.insertionSort tsLe l)

/-- Loop body of `FilterAndGroupByDay` (main.go): skip a record below
the brightness threshold; otherwise append it to the last group when it
falls on the same day as that group's last member, and start a new
group otherwise.  The inner `none` branch (an empty last group) is
unreachable: every group is created non-empty and only ever grows. -/
def groupStep (grouped : List (List ImageFileInfo)) (info : ImageFileInfo) :
    List (List ImageFileInfo) :=
  if info.Brightness < BrightnessThreshold then grouped
  else
    match grouped.getLast? with
    | some prevDayGroup =>
      match prevDayGroup.getLast? with
      | some prev =>
        if TimesOnSameDay prev.Timestamp info.Timestamp then
          grouped.dropLast ++ [prevDayGroup ++ [info]]
        else grouped ++ [[info]]
      | none => grouped ++ [[info]]
    | none => grouped ++ [[info]]

/-- Source `FilterAndGroupByDay` (main.go): a single forward pass over
the records, starting from an empty group list. -/
def FilterAndGroupByDay (imgInfos : List ImageFileInfo) :
    List (List ImageFileInfo) :=
  imgInfos.foldl groupStep []

/-- Outcome of one `GenerateTimelapseForImages` call: a produced output
path together with the manifest lines written, a returned error, or a
process crash (the out-of-range index `images[0]` on an empty group). -/
inductive GenResult where
  | ok (outPath : Str) (manifest : List Str)
  | err
  | crash
deriving DecidableEq

/-- The manifest-writing loop of `GenerateTimelapseForImages`: one
absolute image path per line, in the group's order.  `absPath` models
`filepath.Abs` (which can fail, returning an error). -/
def absManifest (absPath : Str → Option Str) (imgDir : Str) :
    List ImageFileInfo → Option (List Str)
  | [] => some []
  | img :: rest =>
    match absPath (imgDir ++ '/' :: img.Filename) with
    | none => none
    | some line => (absManifest absPath imgDir rest).map (fun l => line :: l)

/-- Source `GenerateTimelapseForImages` (main.go): read the first
member (a crash on an empty group), derive the day key, write the
manifest into the scratch directory, and run the encoder (`mencoder`,
fixed 20 fps) producing `outDir/<dayKey>.avi`.  The encoder is the
oracle `encoderRuns manifestPath outPath`; manifest-file creation is
modelled as succeeding, and a `filepath.Abs` or encoder failure is the
returned error. -/
def GenerateTimelapseForImages (images : List ImageFileInfo)
    (tmpDir imgDir outDir : Str) (absPath : Str → Option Str)
    (encoderRuns : Str → Str → Bool) : GenResult :=
  match images with
  | [] => .crash
  | firstImg :: _ =>
    let dayStr := FormatDate firstImg.Timestamp
    let manifestFilepath := tmpDir ++ '/' :: dayStr ++ strOf (".txt")
    match absManifest absPath imgDir images with
    | none => .err
    | some lines =>
      let outPath := outDir ++ '/' :: dayStr ++ aviExt
      if encoderRuns manifestFilepath outPath then .ok outPath lines
      else .err

/-- Source `GenerateDailyTimelapses` (main.go): one goroutine per day
group, all joined by a `WaitGroup`; each goroutine only calls
`GenerateTimelapseForImages` on its own group and logs the outcome, so
the cycle's outcomes are modelled positionally.  `tmpDir` is the scratch
directory created once per cycle. -/
def GenerateDailyTimelapses (grouping : List (List ImageFileInfo))
    (tmpDir imgDir outDir : Str) (absPath : Str → Option Str)
    (encoderRuns : Str → Str → Bool) : List GenResult :=
  grouping.map
    (fun infos =>
      GenerateTimelapseForImages infos tmpDir imgDir outDir absPath encoderRuns)

/-- Loop of `DetectExistingTimelapses` (main.go), carried out on the
listing with the accumulated `videoTimestamps`.  Note the loop body
executes `return nil` — not `continue` — when an entry's extension is
not ".avi", discarding everything accumulated so far; an unparsable
".avi" name is logged and skipped. -/
def detectLoop : List DirEnt → List GoTime → List GoTime
  | [], acc => acc
  | file :: rest, acc =>
    let ext := goExt file.name
    if ext ≠ aviExt then []
    else
      match ParseDate (replaceAll file.name ext) with
      | none => detectLoop rest acc
      | some t => detectLoop rest (acc ++ [t])

/-- Source `DetectExistingTimelapses` (main.go): scan the output
directory listing for already-rendered day videos. -/
def DetectExistingTimelapses (files : List DirEnt) : List GoTime :=
  detectLoop files []

/-- Exclusion computation of the `updateAll` closure in `main`
(main.go): drop the last entry of the detected list
(`existing[:len(existing)-1]`) when it is non-empty. -/
def updateAllExcludeDates (existing : List GoTime) : List GoTime :=
  if existing.length > 0 then existing.dropLast else existing

/-- A sample image record used to instantiate proved theorems on
concrete inputs. -/
def sampleImage : ImageFileInfo :=
  { Filename := strOf ("5-image.jpg"), Timestamp := timeUnix 5,
    Brightness := mkRat 1 1 }

/-- A one-file image-directory listing for concrete instantiations. -/
def sampleListing : List DirEnt := [{ name := strOf ("5-image.jpg"), size := 1 }]

/-- An output-directory listing with two canonical day-key video names,
in `ioutil.ReadDir`'s lexicographic order. -/
def listingAscending : List DirEnt :=
  [{ name := strOf ("2017-07-28.avi"), size := 1 },
   { name := strOf ("2017-07-29.avi"), size := 1 }]

/-- An output-directory listing, in `ioutil.ReadDir`'s lexicographic
order ('-' sorts before '.'), whose second name also has the ".avi"
extension but decodes — after `strings.Replace` removes every ".avi" —
to an earlier date than the first name: listing order and date order
disagree. -/
def listingMisordered : List DirEnt :=
  [{ name := strOf ("2017-07-29.avi"), size := 1 },
   { name := strOf ("2017-07.avi-28.avi"), size := 1 }]

/-- An output-directory listing holding a rendered day video plus an
"index.html" — exactly the mix the CLI help text describes for the
output directory ("Directory to store completed timelapses and html"). -/
def listingWithHtml : List DirEnt :=
  [{ name := strOf ("2017-07-28.avi"), size := 1 },
   { name := strOf ("index.html"), size := 1 }]

/-- Unfolding equation for `natReprFuel` at positive fuel. -/
theorem natReprFuel_succ (fuel n : Nat) :
    natReprFuel (fuel + 1) n =
      if n < 10 then [digitChar n]
      else natReprFuel fuel (n / 10) ++ [digitChar (n % 10)] := rfl

/-- Fuel does not matter for `natReprFuel` once it exceeds the number. -/
theorem natReprFuel_congr : ∀ (n f1 f2 : Nat), n < f1 → n < f2 →
    natReprFuel f1 n = natReprFuel f2 n := by
  intro n
  induction n using Nat.strong_induction_on with
  | _ n ih =>
    intro f1 f2 h1 h2
    obtain ⟨g1, rfl⟩ : ∃ g, f1 = g + 1 := ⟨f1 - 1, by omega⟩
    obtain ⟨g2, rfl⟩ : ∃ g, f2 = g + 1 := ⟨f2 - 1, by omega⟩
    by_cases hn : n < 10
    · simp [natReprFuel, hn]
    · have hdiv : n / 10 < n := Nat.div_lt_self (by omega) (by omega)
      simp only [natReprFuel, if_neg hn]
      rw [ih (n / 10) hdiv g1 g2 (by omega) (by omega)]

/-- Single-digit case of the decimal rendering. -/
theorem natRepr_lt10 (n : Nat) (h : n < 10) : natRepr n = [digitChar n] := by
  simp [natRepr, natReprFuel, h]

/-- Unfolding step of the decimal rendering for two or more digits. -/
theorem natRepr_ge10 (n : Nat) (h : 10 ≤ n) :
    natRepr n = natRepr (n / 10) ++ [digitChar (n % 10)] := by
  obtain ⟨g, rfl⟩ : ∃ g, n = g + 1 := ⟨n - 1, by omega⟩
  have step : natRepr (g + 1) =
      natReprFuel (g + 1) ((g + 1) / 10) ++ [digitChar ((g + 1) % 10)] := by
    unfold natRepr
    rw [natReprFuel_succ]
    exact if_neg (by omega)
  rw [step,
    natReprFuel_congr ((g + 1) / 10) (g + 1) ((g + 1) / 10 + 1) (by omega) (by omega)]
  rfl

/-- Digit characters are recognized as digits. -/
theorem isDigitChar_digitChar : ∀ k < 10, isDigitChar (digitChar k) = true := by
  decide

/-- Digit characters decode back to their value. -/
theorem digitVal_digitChar : ∀ k < 10, digitVal (digitChar k) = k := by
  decide

/-- A digit character is not a dash. -/
theorem digit_ne_dash (c : Char) (h : isDigitChar c = true) : c ≠ '-' := by
  intro hc
  rw [hc] at h
  exact absurd h (by decide)

/-- A digit character is not the letter i. -/
theorem digit_ne_i (c : Char) (h : isDigitChar c = true) : c ≠ 'i' := by
  intro hc
  rw [hc] at h
  exact absurd h (by decide)

/-- The decimal rendering of a natural-number cast is the natural
rendering. -/
theorem intRepr_natCast (n : Nat) : intRepr (n : Int) = natRepr n := by
  unfold intRepr
  rw [if_neg (by omega : ¬ (n : Int) < 0)]
  norm_num

/-- Four-digit numbers render as their four digits. -/
theorem natRepr_four (n : Nat) (h1 : 1000 ≤ n) (h2 : n ≤ 9999) :
    natRepr n = [digitChar (n / 1000), digitChar (n / 100 % 10),
      digitChar (n / 10 % 10), digitChar (n % 10)] := by
  rw [natRepr_ge10 n (by omega)]
  rw [natRepr_ge10 (n / 10) (by omega)]
  rw [natRepr_ge10 (n / 10 / 10) (by omega)]
  rw [natRepr_lt10 (n / 10 / 10 / 10) (by omega)]
  have e1 : n / 10 / 10 = n / 100 := by omega
  have e2 : n / 10 / 10 / 10 = n / 1000 := by omega
  rw [e1] at *
  rw [e2]
  rfl

/-- Go `%02d` of a number between 1 and 99: exactly the two digits,
zero-padded. -/
theorem goPad2_two_digit (m : Nat) (h1 : 1 ≤ m) (h2 : m ≤ 99) :
    goPad2 (m : Int) = [digitChar (m / 10), digitChar (m % 10)] := by
  unfold goPad2
  rw [intRepr_natCast]
  by_cases hm : m < 10
  · rw [natRepr_lt10 m hm]
    have e1 : m / 10 = 0 := by omega
    have e2 : m % 10 = m := by omega
    rw [e1, e2]
    rfl
  · rw [natRepr_ge10 m (by omega), natRepr_lt10 (m / 10) (by omega)]
    rfl

/-- Go `%02d` of a four-digit year: exactly the four digits. -/
theorem goPad2_year (y : Int) (h1 : 1000 ≤ y) (h2 : y ≤ 9999) :
    goPad2 y = [digitChar (y.toNat / 1000), digitChar (y.toNat / 100 % 10),
      digitChar (y.toNat / 10 % 10), digitChar (y.toNat % 10)] := by
  unfold goPad2 intRepr
  rw [if_neg (by omega : ¬ y < 0)]
  rw [natRepr_four y.toNat (by omega) (by omega)]
  rfl

/-- Months never exceed 31 days. -/
theorem daysInMonth_le (y : Int) (m : Nat) : daysInMonth y m ≤ 31 := by
  unfold daysInMonth
  split
  any_goals omega
  split <;> omega

/-- Unfolding equation for `replaceAllFuel` on the empty string. -/
theorem replaceAllFuel_succ_nil (fuel : Nat) (pat : Str) :
    replaceAllFuel (fuel + 1) [] pat = [] := rfl

/-- Unfolding equation for `replaceAllFuel` on a non-empty string. -/
theorem replaceAllFuel_succ_cons (fuel : Nat) (c : Char) (rest pat : Str) :
    replaceAllFuel (fuel + 1) (c :: rest) pat =
      if pat.isPrefixOf (c :: rest) ∧ pat ≠ [] then
        replaceAllFuel fuel ((c :: rest).drop pat.length) pat
      else
        c :: replaceAllFuel fuel rest pat := rfl

/-- Fuel does not matter for `replaceAllFuel` once it covers the string
length. -/
theorem replaceAllFuel_congr : ∀ (f1 : Nat) (s pat : Str) (f2 : Nat),
    s.length ≤ f1 → s.length ≤ f2 →
    replaceAllFuel f1 s pat = replaceAllFuel f2 s pat := by
  intro f1
  induction f1 with
  | zero =>
    intro s pat f2 h1 h2
    obtain rfl : s = [] := by
      cases s with
      | nil => rfl
      | cons c rest => simp at h1
    cases f2 <;> rfl
  | succ g ih =>
    intro s pat f2 h1 h2
    cases s with
    | nil => cases f2 <;> rfl
    | cons c rest =>
      obtain ⟨g2, rfl⟩ : ∃ g2, f2 = g2 + 1 := by
        refine ⟨f2 - 1, ?_⟩
        simp only [List.length_cons] at h2
        omega
      rw [replaceAllFuel_succ_cons, replaceAllFuel_succ_cons]
      by_cases hc : pat.isPrefixOf (c :: rest) ∧ pat ≠ []
      · rw [if_pos hc, if_pos hc]
        have hplen : pat.length ≠ 0 := by
          intro h0
          exact hc.2 (List.length_eq_zero.mp h0)
        apply ih
        · simp only [List.length_drop, List.length_cons] at *
          omega
        · simp only [List.length_drop, List.length_cons] at *
          omega
      · rw [if_neg hc, if_neg hc]
        simp only [List.length_cons] at h1 h2
        rw [ih rest pat g2 (by omega) (by omega)]

/-- Replacing in the empty string yields the empty string. -/
theorem replaceAll_nil (pat : Str) : replaceAll [] pat = [] := rfl

/-- Step of `replaceAll` when the pattern matches at the front. -/
theorem replaceAll_cons_pos (c : Char) (rest pat : Str)
    (h : pat.isPrefixOf (c :: rest) ∧ pat ≠ []) :
    replaceAll (c :: rest) pat = replaceAll ((c :: rest).drop pat.length) pat := by
  unfold replaceAll
  have hlen : (c :: rest).length = rest.length + 1 := rfl
  rw [hlen, replaceAllFuel_succ_cons, if_pos h]
  have hplen : pat.length ≠ 0 := by
    intro h0
    exact h.2 (List.length_eq_zero.mp h0)
  apply replaceAllFuel_congr
  · simp only [List.length_drop, List.length_cons]
    omega
  · simp only [List.length_drop]
    omega

/-- Step of `replaceAll` when the pattern does not match at the front. -/
theorem replaceAll_cons_neg (c : Char) (rest pat : Str)
    (h : ¬ (pat.isPrefixOf (c :: rest) ∧ pat ≠ [])) :
    replaceAll (c :: rest) pat = c :: replaceAll rest pat := by
  unfold replaceAll
  have hlen : (c :: rest).length = rest.length + 1 := rfl
  rw [hlen, replaceAllFuel_succ_cons, if_neg h]

/-- When no (non-empty) suffix of `s` begins an occurrence of `pat`,
removing all occurrences of `pat` from `s ++ pat` leaves exactly `s`. -/
theorem replaceAll_append_of_no_occ (pat : Str) (hpat : pat ≠ []) :
    ∀ s : Str,
    (∀ t, t ≠ [] → t <:+ s → pat.isPrefixOf (t ++ pat) = false) →
    replaceAll (s ++ pat) pat = s := by
  intro s
  induction s with
  | nil =>
    intro _
    cases pat with
    | nil => exact absurd rfl hpat
    | cons c r =>
      simp only [List.nil_append]
      rw [replaceAll_cons_pos c r (c :: r)
        ⟨List.isPrefixOf_iff_prefix.mpr (List.prefix_refl _), hpat⟩]
      rw [List.drop_length]
      rfl
  | cons c s2 ih =>
    intro hno
    have hhead : pat.isPrefixOf ((c :: s2) ++ pat) = false :=
      hno (c :: s2) (by simp) (List.suffix_refl _)
    have hstep : (c :: s2) ++ pat = c :: (s2 ++ pat) := rfl
    rw [hstep] at hhead
    rw [List.cons_append]
    rw [replaceAll_cons_neg c (s2 ++ pat) pat
      (by
        intro hcontra
        rw [hhead] at hcontra
        exact Bool.false_ne_true hcontra.1)]
    rw [ih (fun t ht hsuf => hno t ht (hsuf.trans (List.suffix_cons c s2)))]

/-- The image suffix cannot begin at a character other than a dash. -/
theorem imageSuffix_not_prefix_head (c : Char) (xs : Str) (hc : c ≠ '-') :
    imageSuffix.isPrefixOf (c :: xs) = false := by
  show (('-' == c) && List.isPrefixOf (strOf ("image.jpg")) xs) = false
  rw [beq_eq_false_iff_ne.mpr (Ne.symm hc), Bool.false_and]

/-- The image suffix cannot continue with a character other than i
after its dash. -/
theorem imageSuffix_not_prefix_second (d : Char) (xs : Str) (hd : d ≠ 'i') :
    imageSuffix.isPrefixOf ('-' :: d :: xs) = false := by
  show (('-' == '-') && (('i' == d) && List.isPrefixOf (strOf ("mage.jpg")) xs)) = false
  rw [beq_eq_false_iff_ne.mpr (Ne.symm hd), Bool.false_and, Bool.and_false]

/-- A digit fold that has already failed stays failed. -/
theorem foldl_digitStep_none : ∀ l : Str, l.foldl digitStep none = none := by
  intro l
  induction l with
  | nil => rfl
  | cons c rest ih =>
    rw [List.foldl_cons]
    exact ih

/-- A successful digit fold means every character was a digit. -/
theorem foldl_digitStep_digits : ∀ (l : Str) (acc : Option Nat) (v : Nat),
    l.foldl digitStep acc = some v → ∀ c ∈ l, isDigitChar c = true := by
  intro l
  induction l with
  | nil =>
    intro acc v h c hc
    simp at hc
  | cons c0 rest ih =>
    intro acc v h c hc
    rw [List.foldl_cons] at h
    rcases List.mem_cons.mp hc with rfl | hmem
    · by_contra hnd
      have hfalse : isDigitChar c = false := by
        cases hid : isDigitChar c
        · rfl
        · exact absurd hid hnd
      have hnone : digitStep acc c = none := by
        cases acc <;> simp [digitStep, hfalse]
      rw [hnone, foldl_digitStep_none] at h
      exact Option.noConfusion h
    · exact ih (digitStep acc c0) v h c hmem

/-- A successful `digitsVal` means a non-empty all-digit string. -/
theorem digitsVal_digits (s : Str) (v : Nat) (h : digitsVal s = some v) :
    s ≠ [] ∧ ∀ c ∈ s, isDigitChar c = true := by
  unfold digitsVal at h
  by_cases hs : s = []
  · rw [if_pos hs] at h
    exact Option.noConfusion h
  · rw [if_neg hs] at h
    exact ⟨hs, foldl_digitStep_digits s (some 0) v h⟩

/-- A non-empty suffix of an all-digit string never begins an
occurrence of the image suffix. -/
theorem no_occ_suffix_digits (ds : Str)
    (hds : ∀ c ∈ ds, isDigitChar c = true) :
    ∀ t, t ≠ [] → t <:+ ds →
      imageSuffix.isPrefixOf (t ++ imageSuffix) = false := by
  intro t ht hsuf
  cases t with
  | nil => exact absurd rfl ht
  | cons c t2 =>
    have hc : c ∈ ds := hsuf.sublist.subset (List.mem_cons_self c t2)
    exact imageSuffix_not_prefix_head c (t2 ++ imageSuffix)
      (digit_ne_dash c (hds c hc))

/-- A string accepted by `goParseInt64` (sign, then digits) contains no
interior start of an occurrence of "-image.jpg". -/
theorem goParseInt64_no_occurrence (s : Str) (n : Int)
    (h : goParseInt64 s = some n) :
    ∀ t, t ≠ [] → t <:+ s →
      imageSuffix.isPrefixOf (t ++ imageSuffix) = false := by
  cases s with
  | nil => simp [goParseInt64] at h
  | cons c0 s2 =>
    intro t ht hsuf
    simp only [goParseInt64] at h
    by_cases hplus : c0 = '+'
    · rw [if_pos hplus] at h
      cases hdv : digitsVal s2 with
      | none =>
        rw [hdv] at h
        simp at h
      | some v =>
        obtain ⟨hne2, hdig⟩ := digitsVal_digits s2 v hdv
        rcases List.suffix_cons_iff.mp hsuf with rfl | hsuf2
        · exact imageSuffix_not_prefix_head c0 (s2 ++ imageSuffix)
            (by rw [hplus]; decide)
        · exact no_occ_suffix_digits s2 hdig t ht hsuf2
    · by_cases hminus : c0 = '-'
      · rw [if_neg hplus, if_pos hminus] at h
        cases hdv : digitsVal s2 with
        | none =>
          rw [hdv] at h
          simp at h
        | some v =>
          obtain ⟨hne2, hdig⟩ := digitsVal_digits s2 v hdv
          rcases List.suffix_cons_iff.mp hsuf with rfl | hsuf2
          · subst hminus
            cases s2 with
            | nil => exact absurd rfl hne2
            | cons d s3 =>
              have hd : isDigitChar d = true := hdig d (List.mem_cons_self d s3)
              exact imageSuffix_not_prefix_second d (s3 ++ imageSuffix)
                (digit_ne_i d hd)
          · exact no_occ_suffix_digits s2 hdig t ht hsuf2
      · rw [if_neg hplus, if_neg hminus] at h
        cases hdv : digitsVal (c0 :: s2) with
        | none =>
          rw [hdv] at h
          simp at h
        | some v =>
          obtain ⟨hne0, hdig⟩ := digitsVal_digits (c0 :: s2) v hdv
          exact no_occ_suffix_digits (c0 :: s2) hdig t ht hsuf

/-- C8: for every filename of the form seconds plus "-image.jpg" where
the seconds part is a base-10 integer accepted by the parser,
`ImageFileToTimestamp` succeeds and the epoch-seconds value of the
resulting time equals that integer — the round-trip on the integer is
lossless. -/
theorem C8_timestamp_roundtrip (s : Str) (n : Int)
    (h : goParseInt64 s = some n) :
    ImageFileToTimestamp (s ++ imageSuffix) = some (timeUnix n) ∧
    (timeUnix n).unix = n := by
  refine ⟨?_, rfl⟩
  unfold ImageFileToTimestamp
  rw [replaceAll_append_of_no_occ imageSuffix (by decide) s
    (goParseInt64_no_occurrence s n h)]
  unfold ParseTimestamp
  rw [h]
  rfl

/-- C8 witness: the round-trip at the concrete filename
"1500872173-image.jpg" (the repository's own fixture timestamp). -/
theorem C8_timestamp_roundtrip_witness :
    ImageFileToTimestamp (strOf ("1500872173") ++ imageSuffix) =
      some (timeUnix 1500872173) ∧
    (timeUnix 1500872173).unix = 1500872173 :=
  C8_timestamp_roundtrip (strOf ("1500872173")) 1500872173 (by decide)

/-- Parsing the formatted day key of a valid four-digit-year date gives
the date back. -/
theorem parse_format_valid (y : Int) (m d : Nat) (hy1 : 1000 ≤ y)
    (hy2 : y ≤ 9999) (hm1 : 1 ≤ m) (hm2 : m ≤ 12) (hd1 : 1 ≤ d)
    (hd2 : d ≤ daysInMonth y m) :
    ParseDate (FormatDate (mkDate y m d)) = some (mkDate y m d) := by
  have hd31 : d ≤ 31 := le_trans hd2 (daysInMonth_le y m)
  have hfmt : FormatDate (mkDate y m d) =
      goPad2 y ++ '-' :: goPad2 (m : Int) ++ '-' :: goPad2 (d : Int) := rfl
  rw [hfmt, goPad2_year y hy1 hy2, goPad2_two_digit m hm1 (by omega),
    goPad2_two_digit d hd1 (by omega)]
  have e1 := isDigitChar_digitChar (y.toNat / 1000) (by omega)
  have e2 := isDigitChar_digitChar (y.toNat / 100 % 10) (by omega)
  have e3 := isDigitChar_digitChar (y.toNat / 10 % 10) (by omega)
  have e4 := isDigitChar_digitChar (y.toNat % 10) (by omega)
  have e5 := isDigitChar_digitChar (m / 10) (by omega)
  have e6 := isDigitChar_digitChar (m % 10) (by omega)
  have e7 := isDigitChar_digitChar (d / 10) (by omega)
  have e8 := isDigitChar_digitChar (d % 10) (by omega)
  have v1 := digitVal_digitChar (y.toNat / 1000) (by omega)
  have v2 := digitVal_digitChar (y.toNat / 100 % 10) (by omega)
  have v3 := digitVal_digitChar (y.toNat / 10 % 10) (by omega)
  have v4 := digitVal_digitChar (y.toNat % 10) (by omega)
  have v5 := digitVal_digitChar (m / 10) (by omega)
  have v6 := digitVal_digitChar (m % 10) (by omega)
  have v7 := digitVal_digitChar (d / 10) (by omega)
  have v8 := digitVal_digitChar (d % 10) (by omega)
  have hy : ((y.toNat / 1000 * 10 + y.toNat / 100 % 10) * 10 +
      y.toNat / 10 % 10) * 10 + y.toNat % 10 = y.toNat := by omega
  have hm : m / 10 * 10 + m % 10 = m := by omega
  have hd : d / 10 * 10 + d % 10 = d := by omega
  have hyy : ((y.toNat : Nat) : Int) = y := by omega
  simp only [ParseDate, List.cons_append, List.nil_append, e1, e2, e3, e4,
    e5, e6, e7, e8, v1, v2, v3, v4, v5, v6, v7, v8, hy, hm, hd, hyy,
    and_true, true_and, and_self, if_true, eq_self_iff_true]
  rw [if_pos ⟨hm1, hm2, hd1, hd2⟩]

/-- C7 (amended): on calendar days whose year has exactly four decimal
digits — the only years the fixed-width decoder accepts — the day-key
codec round-trips (`ParseDate` of `FormatDate` returns the same date)
and is injective; outside that range the round-trip fails, see the
counterexample. -/
theorem C7_daykey_roundtrip_amended :
    (∀ (y : Int) (m d : Nat), 1000 ≤ y → y ≤ 9999 → 1 ≤ m → m ≤ 12 →
      1 ≤ d → d ≤ daysInMonth y m →
      ParseDate (FormatDate (mkDate y m d)) = some (mkDate y m d)) ∧
    (∀ (y y2 : Int) (m m2 d d2 : Nat),
      1000 ≤ y → y ≤ 9999 → 1 ≤ m → m ≤ 12 → 1 ≤ d → d ≤ daysInMonth y m →
      1000 ≤ y2 → y2 ≤ 9999 → 1 ≤ m2 → m2 ≤ 12 → 1 ≤ d2 →
      d2 ≤ daysInMonth y2 m2 →
      FormatDate (mkDate y m d) = FormatDate (mkDate y2 m2 d2) →
      y = y2 ∧ m = m2 ∧ d = d2) := by
  constructor
  · intro y m d hy1 hy2 hm1 hm2 hd1 hd2
    exact parse_format_valid y m d hy1 hy2 hm1 hm2 hd1 hd2
  · intro y y2 m m2 d d2 hy1 hy2 hm1 hm2 hd1 hd2 hy21 hy22 hm21 hm22
      hd21 hd22 heq
    have p1 := parse_format_valid y m d hy1 hy2 hm1 hm2 hd1 hd2
    have p2 := parse_format_valid y2 m2 d2 hy21 hy22 hm21 hm22 hd21 hd22
    rw [heq, p2] at p1
    have hD := Option.some.inj p1
    exact ⟨(congrArg GoTime.year hD).symm, (congrArg GoTime.month hD).symm,
      (congrArg GoTime.day hD).symm⟩

/-- C7 counterexample: the claim fails as stated for every date: at the
date year 99, January 2, the formatted key "99-01-02" (Go `%02d` pads
only to width two) is rejected by the fixed-width decoder, so
decode-of-format does not return the date. -/
theorem C7_counterexample :
    FormatDate (mkDate 99 1 2) = strOf ("99-01-02") ∧
    ParseDate (FormatDate (mkDate 99 1 2)) = none := by decide

/-- C7 witness: the round-trip at the concrete date 2017-07-28. -/
theorem C7_daykey_roundtrip_witness :
    ParseDate (FormatDate (mkDate 2017 7 28)) = some (mkDate 2017 7 28) :=
  C7_daykey_roundtrip_amended.1 2017 7 28 (by decide) (by decide) (by decide)
    (by decide) (by decide) (by decide)

/-- Same-day comparison is reflexive. -/
theorem timesOnSameDay_refl (t : GoTime) : TimesOnSameDay t t = true := by
  simp [TimesOnSameDay]

/-- Same-day comparison is symmetric. -/
theorem timesOnSameDay_symm (t1 t2 : GoTime)
    (h : TimesOnSameDay t1 t2 = true) : TimesOnSameDay t2 t1 = true := by
  simp only [TimesOnSameDay, Bool.and_eq_true, beq_iff_eq] at h ⊢
  obtain ⟨⟨h1, h2⟩, h3⟩ := h
  exact ⟨⟨h1.symm, h2.symm⟩, h3.symm⟩

/-- Same-day comparison is transitive. -/
theorem timesOnSameDay_trans (t1 t2 t3 : GoTime)
    (h1 : TimesOnSameDay t1 t2 = true) (h2 : TimesOnSameDay t2 t3 = true) :
    TimesOnSameDay t1 t3 = true := by
  simp only [TimesOnSameDay, Bool.and_eq_true, beq_iff_eq] at h1 h2 ⊢
  obtain ⟨⟨a1, a2⟩, a3⟩ := h1
  obtain ⟨⟨b1, b2⟩, b3⟩ := h2
  exact ⟨⟨a1.trans b1, a2.trans b2⟩, a3.trans b3⟩

/-- One `groupStep` preserves the day-group invariant (non-empty,
single-day, above-threshold groups) and appends exactly the kept record
to the concatenation of all groups. -/
theorem groupStep_inv (acc : List (List ImageFileInfo)) (info : ImageFileInfo)
    (hacc : ∀ g ∈ acc, g ≠ [] ∧
      (∀ a ∈ g, ∀ b ∈ g, TimesOnSameDay a.Timestamp b.Timestamp = true) ∧
      ∀ a ∈ g, BrightnessThreshold ≤ a.Brightness) :
    (∀ g ∈ groupStep acc info, g ≠ [] ∧
      (∀ a ∈ g, ∀ b ∈ g, TimesOnSameDay a.Timestamp b.Timestamp = true) ∧
      ∀ a ∈ g, BrightnessThreshold ≤ a.Brightness) ∧
    (groupStep acc info).flatten = acc.flatten ++
      (if BrightnessThreshold ≤ info.Brightness then [info] else []) := by
  by_cases hlt : info.Brightness < BrightnessThreshold
  · rw [show groupStep acc info = acc from by simp [groupStep, hlt]]
    refine ⟨hacc, ?_⟩
    rw [if_neg (not_le.mpr hlt), List.append_nil]
  · have hge : BrightnessThreshold ≤ info.Brightness := not_lt.mp hlt
    rw [if_pos hge]
    have hsingle : ∀ g ∈ acc ++ [[info]], g ≠ [] ∧
        (∀ a ∈ g, ∀ b ∈ g, TimesOnSameDay a.Timestamp b.Timestamp = true) ∧
        ∀ a ∈ g, BrightnessThreshold ≤ a.Brightness := by
      intro g hg
      rcases List.mem_append.mp hg with hg1 | hg2
      · exact hacc g hg1
      · rw [List.mem_singleton.mp hg2]
        refine ⟨by simp, ?_, ?_⟩
        · intro a ha b hb
          rw [List.mem_singleton.mp ha, List.mem_singleton.mp hb]
          exact timesOnSameDay_refl _
        · intro a ha
          rw [List.mem_singleton.mp ha]
          exact hge
    cases hlast : acc.getLast? with
    | none =>
      obtain rfl : acc = [] := List.getLast?_eq_none_iff.mp hlast
      rw [show groupStep [] info = [] ++ [[info]] from by simp [groupStep, hlt]]
      exact ⟨hsingle, by simp⟩
    | some g0 =>
      obtain ⟨hg0ne, hg0day, hg0br⟩ :=
        hacc g0 (List.mem_of_getLast?_eq_some hlast)
      cases hlast2 : g0.getLast? with
      | none => exact absurd (List.getLast?_eq_none_iff.mp hlast2) hg0ne
      | some prev =>
        have hprev : prev ∈ g0 := List.mem_of_getLast?_eq_some hlast2
        have hsplit : acc.dropLast ++ [g0] = acc :=
          List.dropLast_append_getLast? g0 (Option.mem_def.mpr hlast)
        by_cases hsame : TimesOnSameDay prev.Timestamp info.Timestamp = true
        · rw [show groupStep acc info = acc.dropLast ++ [g0 ++ [info]] from by
            simp [groupStep, hlt, hlast, hlast2, hsame]]
          constructor
          · intro g hg
            rcases List.mem_append.mp hg with hg1 | hg2
            · exact hacc g (List.dropLast_subset acc hg1)
            · rw [List.mem_singleton.mp hg2]
              refine ⟨by simp [hg0ne], ?_, ?_⟩
              · intro a ha b hb
                rcases List.mem_append.mp ha with ha1 | ha2 <;>
                  rcases List.mem_append.mp hb with hb1 | hb2
                · exact hg0day a ha1 b hb1
                · rw [List.mem_singleton.mp hb2]
                  exact timesOnSameDay_trans _ _ _
                    (hg0day a ha1 prev hprev) hsame
                · rw [List.mem_singleton.mp ha2]
                  exact timesOnSameDay_symm _ _ (timesOnSameDay_trans _ _ _
                    (hg0day b hb1 prev hprev) hsame)
                · rw [List.mem_singleton.mp ha2, List.mem_singleton.mp hb2]
                  exact timesOnSameDay_refl _
              · intro a ha
                rcases List.mem_append.mp ha with ha1 | ha2
                · exact hg0br a ha1
                · rw [List.mem_singleton.mp ha2]
                  exact hge
          · conv_rhs => rw [← hsplit]
            simp [List.flatten_append]
        · rw [show groupStep acc info = acc ++ [[info]] from by
            simp [groupStep, hlt, hlast, hlast2, hsame]]
          exact ⟨hsingle, by simp⟩

/-- Folding `groupStep` over any record sequence preserves the
day-group invariant and concatenates to the threshold-passing filter of
the input, in order. -/
theorem foldl_groupStep_inv : ∀ (l : List ImageFileInfo)
    (acc : List (List ImageFileInfo)),
    (∀ g ∈ acc, g ≠ [] ∧
      (∀ a ∈ g, ∀ b ∈ g, TimesOnSameDay a.Timestamp b.Timestamp = true) ∧
      ∀ a ∈ g, BrightnessThreshold ≤ a.Brightness) →
    (∀ g ∈ l.foldl groupStep acc, g ≠ [] ∧
      (∀ a ∈ g, ∀ b ∈ g, TimesOnSameDay a.Timestamp b.Timestamp = true) ∧
      ∀ a ∈ g, BrightnessThreshold ≤ a.Brightness) ∧
    (l.foldl groupStep acc).flatten = acc.flatten ++
      l.filter (fun i => decide (BrightnessThreshold ≤ i.Brightness)) := by
  intro l
  induction l with
  | nil =>
    intro acc hacc
    exact ⟨hacc, by simp⟩
  | cons info l2 ih =>
    intro acc hacc
    rw [List.foldl_cons]
    obtain ⟨hstep_inv, hstep_join⟩ := groupStep_inv acc info hacc
    obtain ⟨hinv, hjoin⟩ := ih (groupStep acc info) hstep_inv
    refine ⟨hinv, ?_⟩
    rw [hjoin, hstep_join, List.filter_cons]
    by_cases hb : BrightnessThreshold ≤ info.Brightness
    · simp [hb, List.append_assoc]
    · simp [hb]

/-- C3: for every timestamp-sorted input, the grouper yields no empty
group, the concatenation of all groups is exactly the subsequence of
records at or above the brightness threshold in input order, and the
empty input yields an empty group list. -/
theorem C3_group_concat (l : List ImageFileInfo)
    (_hsorted : List.Pairwise tsLe l) :
    FilterAndGroupByDay ([] : List ImageFileInfo) = [] ∧
    (∀ g ∈ FilterAndGroupByDay l, g ≠ []) ∧
    (FilterAndGroupByDay l).flatten =
      l.filter (fun i => decide (BrightnessThreshold ≤ i.Brightness)) := by
  obtain ⟨hinv, hjoin⟩ := foldl_groupStep_inv l []
    (by intro g hg; simp at hg)
  refine ⟨rfl, fun g hg => (hinv g hg).1, ?_⟩
  simpa [FilterAndGroupByDay] using hjoin

/-- C3 witness: the contract at the concrete one-record input. -/
theorem C3_group_concat_witness :
    FilterAndGroupByDay ([] : List ImageFileInfo) = [] ∧
    (∀ g ∈ FilterAndGroupByDay [sampleImage], g ≠ []) ∧
    (FilterAndGroupByDay [sampleImage]).flatten =
      [sampleImage].filter
        (fun i => decide (BrightnessThreshold ≤ i.Brightness)) :=
  C3_group_concat [sampleImage] (List.pairwise_singleton tsLe sampleImage)

/-- C10: with no sortedness assumption at all, every group the grouper
emits is non-empty, all its members share one calendar day, and every
member is at or above the brightness threshold. -/
theorem C10_daygroup_invariant (l : List ImageFileInfo) :
    ∀ g ∈ FilterAndGroupByDay l, g ≠ [] ∧
      (∀ a ∈ g, ∀ b ∈ g, TimesOnSameDay a.Timestamp b.Timestamp = true) ∧
      ∀ a ∈ g, BrightnessThreshold ≤ a.Brightness := by
  intro g hg
  exact (foldl_groupStep_inv l [] (by intro g2 hg2; simp at hg2)).1 g hg

/-- C10 witness: the invariant for the concrete group produced from the
one-record input. -/
theorem C10_daygroup_invariant_witness :
    [sampleImage] ≠ [] ∧
    (∀ a ∈ [sampleImage], ∀ b ∈ [sampleImage],
      TimesOnSameDay a.Timestamp b.Timestamp = true) ∧
    ∀ a ∈ [sampleImage], BrightnessThreshold ≤ a.Brightness :=
  C10_daygroup_invariant [sampleImage] [sampleImage] (by decide)

/-- The threshold constant is the rational one quarter, i.e. the
float64 literal 0.25 of the source. -/
theorem BrightnessThreshold_eq : BrightnessThreshold = 1 / 4 := by
  norm_num [BrightnessThreshold, mkRat]

/-- Every record in a successful collection pass originates from a
listed file that survived every skip check. -/
theorem collectImages_mem (imgDir : Str) (excludeDates : List GoTime)
    (brightness : Str → Option ℚ) :
    ∀ (files : List DirEnt) (out : List ImageFileInfo),
    collectImages imgDir excludeDates brightness files = some out →
    ∀ info ∈ out, ∃ f ∈ files,
      processImage imgDir excludeDates brightness f = some (some info) := by
  intro files
  induction files with
  | nil =>
    intro out h info hinfo
    obtain rfl : out = [] := by
      simpa [collectImages] using h.symm
    simp at hinfo
  | cons f rest ih =>
    intro out h info hinfo
    rw [show collectImages imgDir excludeDates brightness (f :: rest) =
        match processImage imgDir excludeDates brightness f with
        | none => none
        | some none => collectImages imgDir excludeDates brightness rest
        | some (some i) =>
          (collectImages imgDir excludeDates brightness rest).map
            (fun l => i :: l) from rfl] at h
    cases hp : processImage imgDir excludeDates brightness f with
    | none =>
      rw [hp] at h
      exact Option.noConfusion h
    | some o =>
      cases o with
      | none =>
        rw [hp] at h
        obtain ⟨g, hg, hpg⟩ := ih out h info hinfo
        exact ⟨g, List.mem_cons_of_mem f hg, hpg⟩
      | some i =>
        rw [hp] at h
        cases hrest : collectImages imgDir excludeDates brightness rest with
        | none =>
          rw [hrest] at h
          exact Option.noConfusion h
        | some out2 =>
          rw [hrest] at h
          obtain rfl : i :: out2 = out := by
            simpa using h
          rcases List.mem_cons.mp hinfo with rfl | hmem
          · exact ⟨f, List.mem_cons_self f rest, hp⟩
          · obtain ⟨g, hg, hpg⟩ := ih out2 hrest info hmem
            exact ⟨g, List.mem_cons_of_mem f hg, hpg⟩

/-- What a kept record tells us about its source file: non-zero size,
the recognized image extension, a decodable timestamp that the record
carries, and a calendar day outside the exclusion set. -/
theorem processImage_spec (imgDir : Str) (excludeDates : List GoTime)
    (brightness : Str → Option ℚ) (f : DirEnt) (info : ImageFileInfo)
    (h : processImage imgDir excludeDates brightness f = some (some info)) :
    info.Filename = f.name ∧ f.size ≠ 0 ∧ goExt f.name = jpgExt ∧
    ImageFileToTimestamp f.name = some info.Timestamp ∧
    ∀ e ∈ excludeDates, TimesOnSameDay info.Timestamp e = false := by
  unfold processImage at h
  by_cases hsz : f.size = 0
  · rw [if_pos hsz] at h
    simp at h
  · rw [if_neg hsz] at h
    by_cases hext : goExt f.name ≠ jpgExt
    · rw [if_pos hext] at h
      simp at h
    · rw [if_neg hext] at h
      cases htm : ImageFileToTimestamp f.name with
      | none =>
        simp only [htm] at h
        exact Option.noConfusion h
      | some tm =>
        simp only [htm] at h
        by_cases hexc : excludeDates.any (fun ex => TimesOnSameDay tm ex) = true
        · simp only [hexc, eq_self_iff_true, if_true] at h
          simp at h
        · rw [if_neg hexc] at h
          cases hbr : brightness (imgDir ++ '/' :: f.name) with
          | none =>
            simp only [hbr] at h
            exact Option.noConfusion h
          | some b =>
            simp only [hbr, Option.some.injEq] at h
            have hany : excludeDates.any (fun ex => TimesOnSameDay tm ex) = false := by
              cases hx : excludeDates.any (fun ex => TimesOnSameDay tm ex)
              · rfl
              · exact absurd hx hexc
            subst h
            refine ⟨rfl, hsz, not_not.mp hext, rfl, ?_⟩
            intro e he
            exact Bool.eq_false_iff.mpr (List.any_eq_false.mp hany e he)

/-- C5: whenever the scan completes (no fatal condition), its result is
sorted ascending by timestamp, and every record originates from a
listed file of non-zero size with the ".jpg" extension whose decoded
timestamp it carries, and no record's timestamp falls on the same
calendar day as any member of the exclusion set. -/
theorem C5_scan_contract (files : List DirEnt) (imgDir : Str)
    (excludeDates : List GoTime) (brightness : Str → Option ℚ)
    (res : List ImageFileInfo)
    (h : ReadImageFileInfos files imgDir excludeDates brightness = some res) :
    List.Pairwise tsLe res ∧
    ∀ info ∈ res,
      (∃ f ∈ files, info.Filename = f.name ∧ f.size ≠ 0 ∧
        goExt f.name = jpgExt ∧
        ImageFileToTimestamp f.name = some info.Timestamp) ∧
      ∀ e ∈ excludeDates, TimesOnSameDay info.Timestamp e = false := by
  unfold ReadImageFileInfos at h
  cases hc : collectImages imgDir excludeDates brightness files with
  | none =>
    rw [hc] at h
    exact Option.noConfusion h
  | some l0 =>
    rw [hc] at h
    obtain rfl : List.insertionSort tsLe l0 = res := by simpa using h
    constructor
    · exact List.sorted_insertionSort tsLe l0
    · intro info hinfo
      have hmem : info ∈ l0 :=
        (List.perm_insertionSort tsLe l0).mem_iff.mp hinfo
      obtain ⟨f, hf, hpf⟩ :=
        collectImages_mem imgDir excludeDates brightness files l0 hc info hmem
      obtain ⟨h1, h2, h3, h4, h5⟩ :=
        processImage_spec imgDir excludeDates brightness f info hpf
      exact ⟨⟨f, hf, h1, h2, h3, h4⟩, h5⟩

/-- C5 witness: the contract at the concrete one-file listing. -/
theorem C5_scan_contract_witness :
    List.Pairwise tsLe [sampleImage] ∧
    ∀ info ∈ [sampleImage],
      (∃ f ∈ sampleListing, info.Filename = f.name ∧ f.size ≠ 0 ∧
        goExt f.name = jpgExt ∧
        ImageFileToTimestamp f.name = some info.Timestamp) ∧
      ∀ e ∈ ([] : List GoTime), TimesOnSameDay info.Timestamp e = false :=
  C5_scan_contract sampleListing [] [] (fun _ => some (mkRat 1 1))
    [sampleImage] (by decide)

/-- C4: the cycle's fan-out attempts every group (the outcome list has
one entry per group, so no group's failure aborts the cycle), each
group's outcome is exactly what a solo run on that group produces, and
replacing every other group — for instance by a failing one — leaves a
group's outcome unchanged: failures are isolated per day. -/
theorem C4_failure_isolation (grouping grouping2 : List (List ImageFileInfo))
    (tmpDir imgDir outDir : Str) (absPath : Str → Option Str)
    (encoderRuns : Str → Str → Bool) (i : Nat) (hi : i < grouping.length)
    (hlen : grouping2.length = grouping.length)
    (hsame : grouping2.get ⟨i, by omega⟩ = grouping.get ⟨i, hi⟩) :
    (GenerateDailyTimelapses grouping tmpDir imgDir outDir absPath
        encoderRuns).length = grouping.length ∧
    (GenerateDailyTimelapses grouping tmpDir imgDir outDir absPath
        encoderRuns).get ⟨i, by simp [GenerateDailyTimelapses]; omega⟩ =
      GenerateTimelapseForImages (grouping.get ⟨i, hi⟩) tmpDir imgDir outDir
        absPath encoderRuns ∧
    (GenerateDailyTimelapses grouping2 tmpDir imgDir outDir absPath
        encoderRuns).get ⟨i, by simp [GenerateDailyTimelapses]; omega⟩ =
      (GenerateDailyTimelapses grouping tmpDir imgDir outDir absPath
        encoderRuns).get ⟨i, by simp [GenerateDailyTimelapses]; omega⟩ := by
  have e1 : (GenerateDailyTimelapses grouping tmpDir imgDir outDir absPath
      encoderRuns).get ⟨i, by simp [GenerateDailyTimelapses]; omega⟩ =
      GenerateTimelapseForImages (grouping.get ⟨i, hi⟩) tmpDir imgDir outDir
        absPath encoderRuns := by
    simp [GenerateDailyTimelapses]
  have e2 : (GenerateDailyTimelapses grouping2 tmpDir imgDir outDir absPath
      encoderRuns).get ⟨i, by simp [GenerateDailyTimelapses]; omega⟩ =
      GenerateTimelapseForImages (grouping2.get ⟨i, by omega⟩) tmpDir imgDir
        outDir absPath encoderRuns := by
    simp [GenerateDailyTimelapses]
  refine ⟨by simp [GenerateDailyTimelapses], e1, ?_⟩
  rw [e2, e1, hsame]

/-- C4 witness: the isolation statement at a concrete one-group cycle
whose encoder fails. -/
theorem C4_failure_isolation_witness :
    (GenerateDailyTimelapses [[sampleImage]] [] [] []
        (fun s => some s) (fun _ _ => false)).length =
      [[sampleImage]].length ∧
    (GenerateDailyTimelapses [[sampleImage]] [] [] []
        (fun s => some s) (fun _ _ => false)).get ⟨0, by decide⟩ =
      GenerateTimelapseForImages [sampleImage] [] [] []
        (fun s => some s) (fun _ _ => false) ∧
    (GenerateDailyTimelapses [[sampleImage]] [] [] []
        (fun s => some s) (fun _ _ => false)).get ⟨0, by decide⟩ =
      (GenerateDailyTimelapses [[sampleImage]] [] [] []
        (fun s => some s) (fun _ _ => false)).get ⟨0, by decide⟩ :=
  C4_failure_isolation [[sampleImage]] [[sampleImage]] [] [] []
    (fun s => some s) (fun _ _ => false) 0 (by decide) rfl rfl

/-- A successful manifest pass writes one line per group member, in
order: line i is the absolute path of member i's image file. -/
theorem absManifest_spec (absPath : Str → Option Str) (imgDir : Str) :
    ∀ (images : List ImageFileInfo) (lines : List Str),
    absManifest absPath imgDir images = some lines →
    lines.length = images.length ∧
    ∀ (i : Nat) (hi : i < images.length) (hl : i < lines.length),
      absPath (imgDir ++ '/' :: (images.get ⟨i, hi⟩).Filename) =
        some (lines.get ⟨i, hl⟩) := by
  intro images
  induction images with
  | nil =>
    intro lines h
    obtain rfl : lines = [] := by
      simpa [absManifest] using h.symm
    refine ⟨rfl, ?_⟩
    intro i hi hl
    simp at hi
  | cons img rest ih =>
    intro lines h
    cases hab : absPath (imgDir ++ '/' :: img.Filename) with
    | none =>
      simp only [absManifest, hab] at h
      exact Option.noConfusion h
    | some line =>
      simp only [absManifest, hab] at h
      cases hrest : absManifest absPath imgDir rest with
      | none =>
        simp only [hrest] at h
        simp at h
      | some ls2 =>
        simp only [hrest, Option.map_some] at h
        obtain rfl : line :: ls2 = lines := by simpa using h
        obtain ⟨hlen, hget⟩ := ih ls2 hrest
        refine ⟨by simp [hlen], ?_⟩
        intro i hi hl
        cases i with
        | zero => simpa using hab
        | succ j =>
          have hj1 : j < rest.length := by
            simp only [List.length_cons] at hi
            omega
          have hj2 : j < ls2.length := by
            simp only [List.length_cons] at hl
            omega
          simpa using hget j hj1 hj2

/-- C6: a successful generation for a non-empty group returns the
output path outDir/dayKey.avi, where the day key is the formatted date
of the group's first member, and its manifest holds exactly the
absolute image paths of the group's members, one per line, in the
group's order. -/
theorem C6_generate_one (images : List ImageFileInfo)
    (tmpDir imgDir outDir : Str) (absPath : Str → Option Str)
    (encoderRuns : Str → Str → Bool) (p : Str) (m : List Str)
    (h : GenerateTimelapseForImages images tmpDir imgDir outDir absPath
        encoderRuns = GenResult.ok p m) :
    (∃ first rest, images = first :: rest ∧
      p = outDir ++ '/' :: FormatDate first.Timestamp ++ aviExt) ∧
    absManifest absPath imgDir images = some m ∧
    m.length = images.length ∧
    ∀ (i : Nat) (hi : i < images.length) (hm : i < m.length),
      absPath (imgDir ++ '/' :: (images.get ⟨i, hi⟩).Filename) =
        some (m.get ⟨i, hm⟩) := by
  cases images with
  | nil => exact absurd h (by simp [GenerateTimelapseForImages])
  | cons first rest =>
    unfold GenerateTimelapseForImages at h
    cases hab : absManifest absPath imgDir (first :: rest) with
    | none =>
      simp only [hab] at h
      exact GenResult.noConfusion h
    | some lines =>
      simp only [hab] at h
      split at h
      · injection h with hp hm2
        subst hp
        subst hm2
        obtain ⟨hlen, hget⟩ := absManifest_spec absPath imgDir
          (first :: rest) lines hab
        exact ⟨⟨first, rest, rfl, rfl⟩, rfl, hlen, hget⟩
      · exact GenResult.noConfusion h

/-- C6 witness: a successful concrete generation of the one-image
group, with the identity as the absolute-path oracle. -/
theorem C6_generate_one_witness :
    (∃ first rest, [sampleImage] = first :: rest ∧
      ('/' :: FormatDate (timeUnix 5) ++ aviExt : Str) =
        [] ++ '/' :: FormatDate first.Timestamp ++ aviExt) ∧
    absManifest (fun s => some s) [] [sampleImage] =
      some ['/' :: strOf ("5-image.jpg")] ∧
    (['/' :: strOf ("5-image.jpg")] : List Str).length =
      [sampleImage].length ∧
    ∀ (i : Nat) (hi : i < [sampleImage].length)
      (hm : i < (['/' :: strOf ("5-image.jpg")] : List Str).length),
      (fun s => some s) (([] : Str) ++ '/' ::
          ([sampleImage].get ⟨i, hi⟩).Filename) =
        some ((['/' :: strOf ("5-image.jpg")] : List Str).get ⟨i, hm⟩) :=
  C6_generate_one [sampleImage] [] [] [] (fun s => some s) (fun _ _ => true)
    ('/' :: FormatDate (timeUnix 5) ++ aviExt) ['/' :: strOf ("5-image.jpg")]
    (by decide)

/-- C9: the unconditional first-member read is safe exactly on
non-empty groups: a non-empty group can never produce the crash
outcome, while the empty group always does — non-emptiness is a genuine
precondition of the generator. -/
theorem C9_first_access (tmpDir imgDir outDir : Str)
    (absPath : Str → Option Str) (encoderRuns : Str → Str → Bool) :
    (∀ images : List ImageFileInfo, images ≠ [] →
      GenerateTimelapseForImages images tmpDir imgDir outDir absPath
        encoderRuns ≠ GenResult.crash) ∧
    GenerateTimelapseForImages [] tmpDir imgDir outDir absPath encoderRuns =
      GenResult.crash := by
  refine ⟨?_, rfl⟩
  intro images hne
  cases images with
  | nil => exact absurd rfl hne
  | cons first rest =>
    unfold GenerateTimelapseForImages
    cases hab : absManifest absPath imgDir (first :: rest) with
    | none => simp [hab]
    | some lines =>
      simp only [hab]
      split <;> simp

/-- C9 witness: the non-crash guarantee at a concrete non-empty group,
and the crash at the empty group. -/
theorem C9_first_access_witness :
    GenerateTimelapseForImages [sampleImage] [] [] [] (fun s => some s)
      (fun _ _ => true) ≠ GenResult.crash :=
  (C9_first_access [] [] [] (fun s => some s) (fun _ _ => true)).1
    [sampleImage] (by decide)

/-- Calendar order is reflexive. -/
theorem dateLe_refl (t : GoTime) : dateLe t t :=
  Or.inr ⟨rfl, Or.inr ⟨rfl, le_refl _⟩⟩

/-- In a list sorted by calendar order, the last entry bounds every
entry. -/
theorem pairwise_dateLe_last : ∀ (l : List GoTime),
    List.Pairwise dateLe l → ∀ last, l.getLast? = some last →
    ∀ t ∈ l, dateLe t last := by
  intro l
  induction l with
  | nil =>
    intro _ last hlast
    simp at hlast
  | cons x rest ih =>
    intro hp last hlast t ht
    cases rest with
    | nil =>
      obtain rfl : x = last := by simpa using hlast
      obtain rfl : t = x := by simpa using ht
      exact dateLe_refl t
    | cons y rest2 =>
      have hlast2 : (y :: rest2).getLast? = some last := by
        rw [← hlast, List.getLast?_cons_cons]
      rcases List.mem_cons.mp ht with rfl | hmem
      · have hmem_last : last ∈ y :: rest2 :=
          List.mem_of_getLast?_eq_some hlast2
        exact (List.pairwise_cons.mp hp).1 last hmem_last
      · exact ih (List.pairwise_cons.mp hp).2 last hlast2 t hmem

/-- C1 (amended): for every non-empty list of N dates returned by the
detector, the orchestrator's exclusion set is the list minus its LAST
entry in listing order — exactly N-1 dates, with the omitted entry the
last-listed one.  When the detected list is ascending by calendar date
(as with canonical day-key file names, whose lexicographic `ReadDir`
order agrees with date order), that omitted entry is the
most recently dated one; without that ordering assumption it need not
be, see the counterexample. -/
theorem C1_exclusion_amended (files : List DirEnt)
    (hne : DetectExistingTimelapses files ≠ [])
    (hsorted : List.Pairwise dateLe (DetectExistingTimelapses files)) :
    updateAllExcludeDates (DetectExistingTimelapses files) =
      (DetectExistingTimelapses files).dropLast ∧
    (updateAllExcludeDates (DetectExistingTimelapses files)).length =
      (DetectExistingTimelapses files).length - 1 ∧
    ∃ last, (DetectExistingTimelapses files).getLast? = some last ∧
      updateAllExcludeDates (DetectExistingTimelapses files) ++ [last] =
        DetectExistingTimelapses files ∧
      ∀ t ∈ DetectExistingTimelapses files, dateLe t last := by
  have hupd : updateAllExcludeDates (DetectExistingTimelapses files) =
      (DetectExistingTimelapses files).dropLast := by
    unfold updateAllExcludeDates
    rw [if_pos]
    cases hx : DetectExistingTimelapses files with
    | nil => exact absurd hx hne
    | cons a b => simp
  refine ⟨hupd, by rw [hupd, List.length_dropLast], ?_⟩
  obtain ⟨last, hlast⟩ :
      ∃ last, (DetectExistingTimelapses files).getLast? = some last := by
    cases hx : (DetectExistingTimelapses files).getLast? with
    | none => exact absurd (List.getLast?_eq_none_iff.mp hx) hne
    | some a => exact ⟨a, rfl⟩
  refine ⟨last, hlast, ?_,
    pairwise_dateLe_last (DetectExistingTimelapses files) hsorted last hlast⟩
  rw [hupd]
  exact List.dropLast_append_getLast? last (Option.mem_def.mpr hlast)

/-- C1 counterexample: on the lexicographically ordered listing
["2017-07-29.avi", "2017-07.avi-28.avi"] the detector returns the dates
[2017-07-29, 2017-07-28]; the exclusion set is [2017-07-29] and the
omitted (last-listed) entry is 2017-07-28, which is strictly OLDER than
the excluded 2017-07-29 — so the omitted entry is not the most recently
dated one, refuting the claim as stated. -/
theorem C1_counterexample :
    DetectExistingTimelapses listingMisordered =
      [mkDate 2017 7 29, mkDate 2017 7 28] ∧
    updateAllExcludeDates (DetectExistingTimelapses listingMisordered) =
      [mkDate 2017 7 29] ∧
    (DetectExistingTimelapses listingMisordered).getLast? =
      some (mkDate 2017 7 28) ∧
    dateLe (mkDate 2017 7 28) (mkDate 2017 7 29) ∧
    ¬ dateLe (mkDate 2017 7 29) (mkDate 2017 7 28) := by decide

/-- C1 witness: the amended statement at a concrete two-video listing
in ascending date order. -/
theorem C1_exclusion_amended_witness :
    updateAllExcludeDates (DetectExistingTimelapses listingAscending) =
      (DetectExistingTimelapses listingAscending).dropLast ∧
    (updateAllExcludeDates (DetectExistingTimelapses listingAscending)).length =
      (DetectExistingTimelapses listingAscending).length - 1 ∧
    ∃ last, (DetectExistingTimelapses listingAscending).getLast? = some last ∧
      updateAllExcludeDates (DetectExistingTimelapses listingAscending) ++
          [last] = DetectExistingTimelapses listingAscending ∧
      ∀ t ∈ DetectExistingTimelapses listingAscending, dateLe t last :=
  C1_exclusion_amended listingAscending (by decide) (by decide)

/-- C2 (code bug): a single non-".avi" entry makes the detector throw
away everything — the loop body runs `return nil` instead of `continue`
when an entry's extension is not ".avi".  With only the day video
present the detector finds its date, but adding the "index.html" the
output directory is documented to hold makes the whole result empty,
where the claim (and the spec) say non-video entries are ignored. -/
theorem C2_detect_abort :
    DetectExistingTimelapses
      [{ name := strOf ("2017-07-28.avi"), size := 1 }] =
      [mkDate 2017 7 28] ∧
    DetectExistingTimelapses listingWithHtml = [] := by decide
